import Mathlib

/-!
Shallow embedding of eatonphil/docdb (a small schemaless JSON document
database, `main.go` / its file-backed variant) in Lean 4, together with
theorems settling the frozen claims about its specification.

Modelling conventions:
* Go `map[string]any` JSON documents become `Value.obj` over an association
  list `List (String × Value)`; Go map iteration order is unspecified, the
  model iterates in list order.
* Go `float64` numbers are idealized as exact rationals `ℚ`; integer values
  print the same way `fmt.Sprintf("%v", …)` prints them in Go.  All claim
  instances use small integers, where the two agree exactly.
* Go strings indexed by byte (`q[i]`) are modelled as `List Char` indexed by
  position; the two agree on ASCII input, which covers every claim instance.
* Go runtime panics (index out of range) are modelled explicitly by a
  distinguished `crash` outcome; fallible operations return `Except`.
-/

deriving instance DecidableEq for Except

namespace DocDB

/-- A JSON value as decoded by Go's `encoding/json` into `map[string]any`:
null, bool, number (Go `float64`, idealized here as `ℚ`), string, nested
object, or array. -/
inductive Value where
  | null : Value
  | bool (b : Bool) : Value
  | num (q : ℚ) : Value
  | str (s : String) : Value
  | obj (fields : List (String × Value)) : Value
  | arr (elems : List Value) : Value

/-- Decidable equality for `Value` (the automatic deriving handler does not
support this nested inductive). -/
def Value.decEq : (a b : Value) → Decidable (a = b)
  | .null, .null => isTrue rfl
  | .bool a, .bool b =>
    if h : a = b then isTrue (by rw [h]) else isFalse (by simp [h])
  | .num a, .num b =>
    if h : a = b then isTrue (by rw [h]) else isFalse (by simp [h])
  | .str a, .str b =>
    if h : a = b then isTrue (by rw [h]) else isFalse (by simp [h])
  | .obj fs, .obj gs =>
    match decEqFields fs gs with
    | isTrue h => isTrue (by rw [h])
    | isFalse h => isFalse (by simp [h])
  | .arr es, .arr fs =>
    match decEqElems es fs with
    | isTrue h => isTrue (by rw [h])
    | isFalse h => isFalse (by simp [h])
  | .null, .bool _ => isFalse (fun h => Value.noConfusion h)
  | .null, .num _ => isFalse (fun h => Value.noConfusion h)
  | .null, .str _ => isFalse (fun h => Value.noConfusion h)
  | .null, .obj _ => isFalse (fun h => Value.noConfusion h)
  | .null, .arr _ => isFalse (fun h => Value.noConfusion h)
  | .bool _, .null => isFalse (fun h => Value.noConfusion h)
  | .bool _, .num _ => isFalse (fun h => Value.noConfusion h)
  | .bool _, .str _ => isFalse (fun h => Value.noConfusion h)
  | .bool _, .obj _ => isFalse (fun h => Value.noConfusion h)
  | .bool _, .arr _ => isFalse (fun h => Value.noConfusion h)
  | .num _, .null => isFalse (fun h => Value.noConfusion h)
  | .num _, .bool _ => isFalse (fun h => Value.noConfusion h)
  | .num _, .str _ => isFalse (fun h => Value.noConfusion h)
  | .num _, .obj _ => isFalse (fun h => Value.noConfusion h)
  | .num _, .arr _ => isFalse (fun h => Value.noConfusion h)
  | .str _, .null => isFalse (fun h => Value.noConfusion h)
  | .str _, .bool _ => isFalse (fun h => Value.noConfusion h)
  | .str _, .num _ => isFalse (fun h => Value.noConfusion h)
  | .str _, .obj _ => isFalse (fun h => Value.noConfusion h)
  | .str _, .arr _ => isFalse (fun h => Value.noConfusion h)
  | .obj _, .null => isFalse (fun h => Value.noConfusion h)
  | .obj _, .bool _ => isFalse (fun h => Value.noConfusion h)
  | .obj _, .num _ => isFalse (fun h => Value.noConfusion h)
  | .obj _, .str _ => isFalse (fun h => Value.noConfusion h)
  | .obj _, .arr _ => isFalse (fun h => Value.noConfusion h)
  | .arr _, .null => isFalse (fun h => Value.noConfusion h)
  | .arr _, .bool _ => isFalse (fun h => Value.noConfusion h)
  | .arr _, .num _ => isFalse (fun h => Value.noConfusion h)
  | .arr _, .str _ => isFalse (fun h => Value.noConfusion h)
  | .arr _, .obj _ => isFalse (fun h => Value.noConfusion h)
where
  decEqFields : (a b : List (String × Value)) → Decidable (a = b)
    | [], [] => isTrue rfl
    | [], _ :: _ => isFalse (fun h => List.noConfusion h)
    | _ :: _, [] => isFalse (fun h => List.noConfusion h)
    | (k1, v1) :: r1, (k2, v2) :: r2 =>
      if hk : k1 = k2 then
        match Value.decEq v1 v2 with
        | isTrue hv =>
          match decEqFields r1 r2 with
          | isTrue hr => isTrue (by rw [hk, hv, hr])
          | isFalse hr => isFalse (by simp [hr])
        | isFalse hv => isFalse (by simp [hv])
      else isFalse (by simp [hk])
  decEqElems : (a b : List Value) → Decidable (a = b)
    | [], [] => isTrue rfl
    | [], _ :: _ => isFalse (fun h => List.noConfusion h)
    | _ :: _, [] => isFalse (fun h => List.noConfusion h)
    | v1 :: r1, v2 :: r2 =>
      match Value.decEq v1 v2 with
      | isTrue hv =>
        match decEqElems r1 r2 with
        | isTrue hr => isTrue (by rw [hv, hr])
        | isFalse hr => isFalse (by simp [hr])
      | isFalse hv => isFalse (by simp [hv])

instance : DecidableEq Value := Value.decEq

/-- A document: the top-level `map[string]any`. -/
abbrev Doc := List (String × Value)

/-- Go `fmt.Sprintf("%v", v)` on a decoded JSON value.  A nil interface
prints `<nil>`, booleans print `true`/`false`, strings print verbatim,
and a `float64` holding an integer prints without a decimal point.
Non-integer numbers and composites are given best-effort renderings (Go
prints shortest-float / `map[…]` / `[…]` forms); no claim exercises them. -/
def textual : Value → String
  | .null => "<nil>"
  | .bool b => if b then "true" else "false"
  | .num q => if q.den = 1 then toString q.num else toString q
  | .str s => s
  | .obj fs => "map[" ++ textualFields fs ++ "]"
  | .arr es => "[" ++ textualElems es ++ "]"
where
  textualFields : List (String × Value) → String
    | [] => ""
    | [(k, v)] => k ++ ":" ++ textual v
    | (k, v) :: rest => k ++ ":" ++ textual v ++ " " ++ textualFields rest
  textualElems : List Value → String
    | [] => ""
    | [v] => textual v
    | v :: rest => textual v ++ " " ++ textualElems rest

/-- Go map lookup `m[part]` on the association-list model. -/
def assocV (m : List (String × Value)) (k : String) : Option Value :=
  match m with
  | [] => none
  | (k2, v) :: rest => if k2 = k then some v else assocV rest k

/-- `getPathValues(obj, prefix)` from the source: flatten a document into
`path=value` fingerprint strings.  Nested documents recurse with the prefix
set to the current key alone (the source's quirk); arrays are skipped. -/
def getPathValues : List (String × Value) → String → List String
  | [], _ => []
  | (key, val) :: rest, pfx => entry key val pfx ++ getPathValues rest pfx
where
  /-- The body of the `for key, val := range obj` loop: nested documents
  recurse with the prefix set to the current key alone, arrays contribute
  nothing, and scalars emit one `path=value` fingerprint. -/
  entry (key : String) (val : Value) (pfx : String) : List String :=
    match val with
    | .obj inner => getPathValues inner key
    | .arr _ => []
    | v => [(if pfx ≠ "" then pfx ++ "." ++ key else key) ++ "=" ++ textual v]

/-- The traversal loop inside `getPath`: walk the parts, requiring each
intermediate segment to be a document (`map[string]any`). -/
def getPathAux : Value → List String → Option Value
  | seg, [] => some seg
  | seg, part :: rest =>
    match seg with
    | .obj m =>
      match assocV m part with
      | some v => getPathAux v rest
      | none => none
    | _ => none

/-- `getPath(doc, parts)` from the source: `(v, true)` becomes `some v`,
`(nil, false)` becomes `none`. -/
def getPath (doc : Doc) (parts : List String) : Option Value :=
  getPathAux (.obj doc) parts

/-- One parsed comparison `(key, value, op)` (source `queryComparison`). -/
structure QueryComparison where
  key : List String
  value : String
  op : String
  deriving DecidableEq

/-- A parsed query: AND-joined comparisons (source `query`). -/
structure Query where
  ands : List QueryComparison
  deriving DecidableEq

/-- Go `strconv.ParseFloat(s, 64)`, modelled over exact rationals on the
decimal fragment `[+-] digits [. digits] [eE [+-] digits]` (also `.5`,
`1.`).  Inf/NaN spellings and hex floats, which Go also accepts, are not
modelled; no claim exercises them. -/
def parseFloatQ (s : String) : Option ℚ :=
  let chars := s.data
  let afterSign : List Char × Bool :=
    match chars with
    | '+' :: rest => (rest, false)
    | '-' :: rest => (rest, true)
    | rest => (rest, false)
  let (body, neg) := afterSign
  let intPart := body.takeWhile Char.isDigit
  let afterInt := body.dropWhile Char.isDigit
  let (fracPart, afterFrac) :=
    match afterInt with
    | '.' :: rest => (rest.takeWhile Char.isDigit, rest.dropWhile Char.isDigit)
    | rest => ([], rest)
  if intPart.length = 0 ∧ fracPart.length = 0 then none
  else
    let digitsToNat : List Char → Nat :=
      fun l => l.foldl (fun acc c => acc * 10 + (c.toNat - '0'.toNat)) 0
    let mantNum : Int :=
      (digitsToNat intPart * 10 ^ fracPart.length + digitsToNat fracPart : Nat)
    let signedNum : Int := if neg then -mantNum else mantNum
    let fracDen : Nat := 10 ^ fracPart.length
    match afterFrac with
    | [] => some (Rat.divInt signedNum fracDen)
    | 'e' :: rest => parseFloatExp signedNum fracDen rest
    | 'E' :: rest => parseFloatExp signedNum fracDen rest
    | _ => none
where
  parseFloatExp (mantNum : Int) (mantDen : Nat) (rest : List Char) : Option ℚ :=
    let (erest, eneg) :=
      match rest with
      | '+' :: r => (r, false)
      | '-' :: r => (r, true)
      | r => (r, false)
    let edigits := erest.takeWhile Char.isDigit
    if edigits.length = 0 ∨ edigits.length ≠ erest.length then none
    else
      let e := erest.foldl (fun acc c => acc * 10 + (c.toNat - '0'.toNat)) 0
      some (if eneg then Rat.divInt mantNum (mantDen * 10 ^ e)
            else Rat.divInt (mantNum * (10 ^ e : Nat)) mantDen)

/-- The `switch t := value.(type)` coercion of a resolved document value to
`float64` inside `match`: numbers convert directly (every numeric case of
the Go switch collapses onto `Value.num`), strings re-parse as floats, and
every other type falls to the `default: return false` arm. -/
def coerceFloat : Value → Option ℚ
  | .num q => some q
  | .str s => parseFloatQ s
  | _ => none

/-- One iteration of `query.match`'s loop: evaluate a single comparison
against a document, in exactly the source's order: resolve the path, handle
`=` by stringified comparison, otherwise parse the predicate value as a
float, coerce the document value, and compare — `>` requires `left > right`
strictly, while any other operator falls through to the trailing
`left >= right → false` check, i.e. is evaluated as strict `<`. -/
def matchPred (doc : Doc) (arg : QueryComparison) : Bool :=
  match getPath doc arg.key with
  | none => false
  | some value =>
    if arg.op = "=" then textual value = arg.value
    else
      match parseFloatQ arg.value with
      | none => false
      | some right =>
        match coerceFloat value with
        | none => false
        | some left =>
          if arg.op = ">" then decide (right < left)
          else decide (left < right)

/-- `query.match(doc)` from the source: every comparison must hold
(the loop short-circuits on the first failure). -/
def queryMatch (q : Query) (doc : Doc) : Bool :=
  q.ands.all (matchPred doc)

/-! ## Splitting on a separator character

`strings.Split(s, sep)` for a one-character separator, modelled at the
character-list level (Lean's `String.splitOn` does not reduce in the
kernel).  `strings.Split("", sep) = [""]`, matching `splitCOn sep [] =
[[]]`. -/

/-- Split a character list on a separator character. -/
def splitCOn (sep : Char) : List Char → List (List Char)
  | [] => [[]]
  | c :: rest =>
    match splitCOn sep rest with
    | [] => [[]]
    | p :: ps => if c = sep then [] :: p :: ps else (c :: p) :: ps

/-- `strings.Split(s, sep)` for a one-character separator. -/
def splitStr (sep : Char) (s : String) : List String :=
  (splitCOn sep s.data).map String.mk

/-! ## Lexer and parser -/

/-- A character the unquoted-atom lexer accepts: `unicode.IsLetter(c) ||
unicode.IsDigit(c) || c == '.'` (ASCII fragment; every claim instance is
ASCII). -/
def isBareChar (c : Char) : Bool :=
  c.isAlpha || c.isDigit || c = '.'

/-- `unicode.IsSpace` (Latin-1 range: space, tab, newline, vertical tab,
form feed, carriage return, NEL, NBSP). -/
def isSpaceGo (c : Char) : Bool :=
  c = ' ' || c = '\t' || c = '\n' || c = '\r' ||
    c = Char.ofNat 11 || c = Char.ofNat 12 ||
    c = Char.ofNat 0x85 || c = Char.ofNat 0xA0

/-- The quoted-string scan inside `lexString`, starting just after the
opening quote: returns the enclosed characters and the number of characters
consumed including the closing quote, or `none` if input ends first. -/
def takeQuoted : List Char → Option (List Char × Nat)
  | [] => none
  | c :: rest =>
    if c = '"' then some ([], 1)
    else (takeQuoted rest).map (fun p => (c :: p.1, p.2 + 1))

/-- `lexString(input, index)` from the source, with the Go result triple
`(string, int, error)` modelled as `String × Nat × Option String`. -/
def lexString (input : List Char) (index : Nat) : String × Nat × Option String :=
  if index ≥ input.length then ("", index, none)
  else
    match input.drop index with
    | '"' :: tl =>
      match takeQuoted tl with
      | none => ("", input.length, some "Expected end of quoted string")
      | some (s, n) => (String.mk s, index + 1 + n, none)
    | rest =>
      let s := rest.takeWhile isBareChar
      if s.length = 0 then ("", index, some "No string found")
      else (String.mk s, index + s.length, none)

/-- The `for unicode.IsSpace(qRune[i])` loop of `parseQuery`, applied to the
suffix starting at the current position: the number of whitespace characters
skipped, or `none` when the loop runs off the end of the input and indexes
out of range (a Go panic). -/
def skipWsCount : List Char → Option Nat
  | [] => none
  | c :: rest => if isSpaceGo c then (skipWsCount rest).map (· + 1) else some 0

/-- The observable outcome of `parseQuery`: a parsed query, a returned
error, or a runtime panic (index out of range).  `outOfFuel` is an artifact
of the fuel-indexed loop model and is unreachable for the fuel budget
`parseQuery` supplies, since every loop iteration strictly advances the
cursor. -/
inductive ParseOutcome where
  | ok (q : Query)
  | err (msg : String)
  | crash
  | outOfFuel
  deriving DecidableEq

/-- The `for i < len(qRune)` loop of `parseQuery`, one constructor-level
fuel unit per iteration.  Positions mirror the source exactly, including its
unchecked indexing: the whitespace loop, the colon test `q[nextIndex]`, the
operator test `q[i]`, and the operator read after `i++` each crash when they
index past the end; when an explicit `>`/`<` is present the source
increments `i` first and then takes `op = string(q[i])`, the character
after the one it consumed. -/
def parseLoop (q : List Char) : Nat → Nat → List QueryComparison → ParseOutcome
  | 0, _, _ => .outOfFuel
  | fuel + 1, i, acc =>
    if i ≥ q.length then .ok ⟨acc⟩
    else
      match skipWsCount (q.drop i) with
      | none => .crash
      | some d =>
        let i1 := i + d
        let (key, n, kerr) := lexString q i1
        match kerr with
        | some e =>
          .err ("Expected valid key, got [" ++ e ++ "]: `" ++
            String.mk (q.drop n) ++ "`")
        | none =>
          if hc : n < q.length then
            if q.get ⟨n, hc⟩ ≠ ':' then
              .err ("Expected colon at " ++ toString n ++ ", got: `" ++
                String.mk (q.drop n) ++ "`")
            else
              let i2 := n + 1
              let value0 := fun (op : String) (iv : Nat) =>
                let (value, n2, verr) := lexString q iv
                match verr with
                | some e =>
                  .err ("Expected valid value, got [" ++ e ++ "]: `" ++
                    String.mk (q.drop n2) ++ "`")
                | none =>
                  parseLoop q fuel n2
                    (acc ++ [⟨splitStr '.' key, value, op⟩])
              if h2 : i2 < q.length then
                let c := q.get ⟨i2, h2⟩
                if c = '>' ∨ c = '<' then
                  let i3 := i2 + 1
                  if h3 : i3 < q.length then
                    value0 (String.mk [q.get ⟨i3, h3⟩]) i3
                  else .crash
                else value0 "=" i2
              else .crash
          else .crash

/-- `parseQuery(q)` from the source.  The fuel `q.length + 1` covers every
loop iteration because each iteration consumes at least the colon. -/
def parseQuery (s : String) : ParseOutcome :=
  if s = "" then .ok ⟨[]⟩
  else parseLoop s.data (s.data.length + 1) 0 []

/-! ## Key-value store model

Association lists with Go-map semantics: `assocLookup` is `m[k]`,
`assocSet` is `m[k] = v` (unique keys; a set either overwrites in place or
appends a fresh key). -/

/-- Point read from a keyed store. -/
def assocLookup {α : Type} : List (String × α) → String → Option α
  | [], _ => none
  | (k2, v) :: rest, k => if k2 = k then some v else assocLookup rest k

/-- Point write to a keyed store. -/
def assocSet {α : Type} (store : List (String × α)) (k : String) (v : α) :
    List (String × α) :=
  if store.any (fun p => p.1 = k) then
    store.map (fun p => if p.1 = k then (k, v) else p)
  else store ++ [(k, v)]

/-! ## Index writer -/

/-- `strings.Split(idsString, ",")`. -/
def splitComma (s : String) : List String := splitStr ',' s

/-- The posting-list update rule of `index` for one fingerprint: seed an
empty list with the id, leave the list alone when the comma-split ids
already contain the id (`found`), and append `"," + id` otherwise. -/
def postingAppend (idsString id : String) : String :=
  if idsString = "" then id
  else if id ∈ splitComma idsString then idsString
  else idsString ++ "," ++ id

/-- The body of the `for _, pathValue := range pv` loop of `index`: read the
posting list for one fingerprint (absence reads as empty), update it by
`postingAppend`, and write it back. -/
def indexOne (store : List (String × String)) (id : String) (pathValue : String) :
    List (String × String) :=
  assocSet store pathValue
    (postingAppend ((assocLookup store pathValue).getD "") id)

/-- `server.index(id, document)` from the source, acting on the index
store: flatten the document and upsert the id into each fingerprint's
posting list. -/
def index (store : List (String × String)) (id : String) (document : Doc) :
    List (String × String) :=
  (getPathValues document "").foldl (fun st pv => indexOne st id pv) store

/-! ## Search executor -/

/-- The index backend's answer for one key, as `searchDocuments` can
observe it through `indexDb.Get` / `ReadFile`: stored bytes, or a read
failure other than not-found.  An absent key models `pebble.ErrNotFound`
(`no such file or directory` in the file-backed variant). -/
inductive IndexEntry where
  | bytes (s : String)
  | readErr (msg : String)
  deriving DecidableEq

/-- The index store as visible to the search path. -/
abbrev IndexStore := List (String × IndexEntry)

/-- The primary document store: ids mapped to their (already unmarshalled)
documents, iterated in list order (the backend's iteration order is
unspecified by the spec). -/
abbrev PrimaryStore := List (String × Doc)

/-- `server.lookup(pathValue)` from the source: a read failure other than
not-found is surfaced; an absent key or empty bytes yield the empty list;
otherwise the bytes split on commas. -/
def lookup (idx : IndexStore) (pathValue : String) : Except String (List String) :=
  match assocLookup idx pathValue with
  | some (.readErr m) =>
    .error ("Could not look up pathvalue [" ++ pathValue ++ "]: " ++ m)
  | some (.bytes s) => if s = "" then .ok [] else .ok (splitComma s)
  | none => .ok []

/-- `strings.Join(key, ".")`. -/
def joinDot : List String → String
  | [] => ""
  | [s] => s
  | s :: rest => s ++ "." ++ joinDot rest

/-- The fingerprint `searchDocuments` looks up for one equality predicate:
`fmt.Sprintf("%s=%v", strings.Join(argument.key, "."), argument.value)`. -/
def fingerprintOf (arg : QueryComparison) : String :=
  joinDot arg.key ++ "=" ++ arg.value

/-- `idsArgumentCount[id]++` with zero-initialisation for a fresh id. -/
def bumpCount (counts : List (String × Nat)) (id : String) : List (String × Nat) :=
  if counts.any (fun p => p.1 = id) then
    counts.map (fun p => if p.1 = id then (p.1, p.2 + 1) else p)
  else counts ++ [(id, 1)]

/-- The inner `for _, id := range ids` loop: one increment per posting-list
occurrence. -/
def bumpCounts (counts : List (String × Nat)) (ids : List String) :
    List (String × Nat) :=
  ids.foldl bumpCount counts

/-- The first loop of `searchDocuments` over `q.ands`: for each equality
predicate, count `nonRangeArguments`, look up its posting list (aborting the
whole search on a lookup error) and bump each returned id's count; any other
operator only sets `isRange`.  State is `(idsArgumentCount, isRange,
nonRangeArguments)`. -/
def collect (idx : IndexStore) :
    List QueryComparison → List (String × Nat) × Bool × Nat →
      Except String (List (String × Nat) × Bool × Nat)
  | [], st => .ok st
  | arg :: rest, (counts, isRange, nonRange) =>
    if arg.op = "=" then
      match lookup idx (fingerprintOf arg) with
      | .error e => .error e
      | .ok ids => collect idx rest (bumpCounts counts ids, isRange, nonRange + 1)
    else collect idx rest (counts, true, nonRange)

/-- The `idsInAll` computation: ids whose count equals
`nonRangeArguments`. -/
def idsInAllOf (counts : List (String × Nat)) (nonRange : Nat) : List String :=
  (counts.filter (fun p => p.2 = nonRange)).map (fun p => p.1)

/-- `server.getDocumentById(id)`: a missing id is a backend read error
(surfaced to the caller); the stored document needs no unmarshalling in the
model. -/
def getDocumentById (primary : PrimaryStore) (id : String) : Except String Doc :=
  match assocLookup primary id with
  | some d => .ok d
  | none => .error ("document read failed: " ++ id)

/-- The `len(idsInAll) > 0` branch of `searchDocuments`: load each candidate
document (a failed load aborts the search) and include it when `!isRange ||
q.match(document)`. -/
def loadCandidates (primary : PrimaryStore) (q : Query) (isRange : Bool) :
    List String → Except String (List (String × Doc))
  | [] => .ok []
  | id :: rest =>
    match getDocumentById primary id with
    | .error e => .error e
    | .ok document =>
      let keep := !isRange || queryMatch q document
      match loadCandidates primary q isRange rest with
      | .error e => .error e
      | .ok docs => .ok (if keep then (id, document) :: docs else docs)

/-- The full-scan branch of `searchDocuments`: iterate the whole primary
store and keep the documents matching the query. -/
def scanAll (primary : PrimaryStore) (q : Query) : List (String × Doc) :=
  primary.filter (fun p => queryMatch q p.2)

/-- `server.searchDocuments` on an already-parsed query: run the counting
loop (aborting on a lookup error), compute `idsInAll`, discard it when
`skipIndex` is requested, and take the candidate-load branch when it is
non-empty, the full-scan branch otherwise. -/
def searchDocuments (primary : PrimaryStore) (idx : IndexStore) (q : Query)
    (skipIndex : Bool) : Except String (List (String × Doc)) :=
  match collect idx q.ands ([], false, 0) with
  | .error e => .error e
  | .ok (counts, isRange, nonRange) =>
    let idsInAll := idsInAllOf counts nonRange
    let idsInAll2 := if skipIndex then [] else idsInAll
    if idsInAll2 = [] then .ok (scanAll primary q)
    else loadCandidates primary q isRange idsInAll2

/-! ## Specification-side definitions

These definitions restate parts of the executor in the spec's vocabulary;
the theorems below compare them with the source embedding. -/

/-- Path resolution as the spec describes it: the empty path resolves to
the current segment, and one step follows a key of a nested document. -/
inductive Resolves : Value → List String → Value → Prop where
  | nil (v : Value) : Resolves v [] v
  | cons {m : List (String × Value)} {part : String} {rest : List String}
      {w u : Value} :
      assocV m part = some w → Resolves w rest u →
      Resolves (.obj m) (part :: rest) u

/-- Path resolution failure as the spec describes it: some step meets a
non-document intermediate value, a missing key, or fails deeper down. -/
inductive PathFails : Value → List String → Prop where
  | notDoc {seg : Value} {part : String} {rest : List String} :
      (∀ m, seg ≠ .obj m) → PathFails seg (part :: rest)
  | missing {m : List (String × Value)} {part : String} {rest : List String} :
      assocV m part = none → PathFails (.obj m) (part :: rest)
  | deeper {m : List (String × Value)} {part : String} {rest : List String}
      {w : Value} :
      assocV m part = some w → PathFails w rest →
      PathFails (.obj m) (part :: rest)

/-- The posting lists fetched for the equality predicates of a query, in
order (one per equality predicate), or the first lookup error. -/
def lookupsOf (idx : IndexStore) : List QueryComparison →
    Except String (List (List String))
  | [] => .ok []
  | arg :: rest =>
    if arg.op = "=" then
      match lookup idx (fingerprintOf arg) with
      | .error e => .error e
      | .ok ids =>
        match lookupsOf idx rest with
        | .error e => .error e
        | .ok ls => .ok (ids :: ls)
    else lookupsOf idx rest

/-- Candidate loading with no residual filtering at all: every candidate
whose document loads is included, with no evaluation of the query. -/
def loadAllCandidates (primary : PrimaryStore) :
    List String → Except String (List (String × Doc))
  | [] => .ok []
  | id :: rest =>
    match getDocumentById primary id with
    | .error e => .error e
    | .ok d =>
      match loadAllCandidates primary rest with
      | .error e => .error e
      | .ok ds => .ok ((id, d) :: ds)

/-- How many times an id occurs in a stored posting-list byte string. -/
def idCount (id stored : String) : Nat := (splitComma stored).count id

/-- The accumulated `idsArgumentCount` value for an id (zero when the id
has no entry). -/
def countsVal (counts : List (String × Nat)) (x : String) : Nat :=
  (assocLookup counts x).getD 0

/-! ## Theorems on the parser (claims C1, C5, C6) -/

/-- C1: the claim — backed by spec scenario 5, parser step 4, and the
repository's own `Test_parseQuery` — states that an explicit `>` after the
colon becomes the predicate's operator, so `a.b:1 c:>2` parses to
`(["a","b"],"=","1")` and `(["c"],">","2")`.  Evaluating the source on that
exact input instead yields the operator `"2"` for the second predicate: the
source advances the cursor past the `>` first and then reads the operator
from the new position (the character following the `>`), contradicting its
own test, which expects `">"`. -/
theorem parseQuery_operator_bug_at_test_input :
    parseQuery "a.b:1 c:>2" =
      .ok ⟨[⟨["a", "b"], "1", "="⟩, ⟨["c"], "2", "2"⟩]⟩ ∧
    parseQuery "a.b:1 c:>2" ≠
      .ok ⟨[⟨["a", "b"], "1", "="⟩, ⟨["c"], "2", ">"⟩]⟩ := by
  constructor
  · decide
  · decide

/-- C5: the claim — backed by the spec grammar `query := ( ws* predicate )*
ws*` — states that trailing whitespace after the last predicate is allowed
and ignored.  Evaluating the source on `"a:1 "` instead reaches the
whitespace-eating loop with the cursor at the end of the input and indexes
out of range (a runtime panic), while the same query without the trailing
blank parses fine. -/
theorem parseQuery_trailing_whitespace_crashes :
    parseQuery "a:1 " = .crash ∧
    parseQuery "a:1" = .ok ⟨[⟨["a"], "1", "="⟩]⟩ := by
  constructor
  · decide
  · decide

/-- C6: the claim states that whenever the position after the lexed key
atom does not hold a `:` — including when the input ends right after the
key — `parseQuery` returns an expected-colon error carrying the offset and
the remaining suffix.  For a non-colon character strictly inside the input
the source does return exactly that error, but when the input ends right
after the key atom the colon test `q[nextIndex]` indexes out of range and
panics instead of returning an error. -/
theorem parseQuery_missing_colon_end_of_input_crashes :
    parseQuery "abc" = .crash ∧
    parseQuery "a>b" = .err "Expected colon at 1, got: `>b`" := by
  constructor
  · decide
  · decide

/-! ## Theorems on the path flattener (claim C3) -/

/-- C3: for every nested-document value the flattener recurses with the
prefix set to the current key alone, not the accumulated dotted prefix; in
particular `{"a":{"b":{"c":1}}}` flattens to the single fingerprint
`b.c=1`, and `a.b.c=1` is not produced. -/
theorem getPathValues_prefix_is_current_key_alone :
    (∀ (key : String) (inner rest : List (String × Value)) (pfx : String),
       getPathValues ((key, .obj inner) :: rest) pfx =
         getPathValues inner key ++ getPathValues rest pfx) ∧
    getPathValues [("a", .obj [("b", .obj [("c", .num 1)])])] "" = ["b.c=1"] ∧
    "a.b.c=1" ∉ getPathValues [("a", .obj [("b", .obj [("c", .num 1)])])] "" := by
  refine ⟨fun key inner rest pfx => rfl, by decide, by decide⟩

/-! ## Theorems on `getPath` (claim C10) -/

/-- `getPathAux` returns `some` exactly on the spec's resolution relation. -/
theorem getPathAux_some_iff :
    ∀ (parts : List String) (seg v : Value),
      getPathAux seg parts = some v ↔ Resolves seg parts v := by
  intro parts
  induction parts with
  | nil =>
    intro seg v
    constructor
    · intro h
      obtain rfl : seg = v := by simpa [getPathAux] using h
      exact .nil seg
    · intro h
      cases h
      rfl
  | cons part rest ih =>
    intro seg v
    constructor
    · intro h
      cases seg with
      | obj m =>
        simp only [getPathAux] at h
        cases ha : assocV m part with
        | none => rw [ha] at h; cases h
        | some w =>
          rw [ha] at h
          exact .cons ha ((ih w v).mp h)
      | null => simp [getPathAux] at h
      | bool b => simp [getPathAux] at h
      | num q => simp [getPathAux] at h
      | str s => simp [getPathAux] at h
      | arr es => simp [getPathAux] at h
    · intro h
      cases h with
      | cons ha hr =>
        simp only [getPathAux]
        rw [ha]
        exact (ih _ v).mpr hr

/-- `getPathAux` returns `none` exactly on the spec's failure relation. -/
theorem getPathAux_none_iff :
    ∀ (parts : List String) (seg : Value),
      getPathAux seg parts = none ↔ PathFails seg parts := by
  intro parts
  induction parts with
  | nil =>
    intro seg
    constructor
    · intro h; simp [getPathAux] at h
    · intro h; cases h
  | cons part rest ih =>
    intro seg
    constructor
    · intro h
      cases seg with
      | obj m =>
        simp only [getPathAux] at h
        cases ha : assocV m part with
        | none => exact .missing ha
        | some w =>
          rw [ha] at h
          exact .deeper ha ((ih w).mp h)
      | null => exact .notDoc (fun m h2 => Value.noConfusion h2)
      | bool b => exact .notDoc (fun m h2 => Value.noConfusion h2)
      | num q => exact .notDoc (fun m h2 => Value.noConfusion h2)
      | str s => exact .notDoc (fun m h2 => Value.noConfusion h2)
      | arr es => exact .notDoc (fun m h2 => Value.noConfusion h2)
    · intro h
      cases h with
      | notDoc hne =>
        cases seg with
        | obj m => exact absurd rfl (hne m)
        | null => simp [getPathAux]
        | bool b => simp [getPathAux]
        | num q => simp [getPathAux]
        | str s => simp [getPathAux]
        | arr es => simp [getPathAux]
      | missing ha =>
        simp only [getPathAux]
        rw [ha]
      | deeper ha hf =>
        simp only [getPathAux]
        rw [ha]
        exact (ih _).mpr hf

/-- C10: `getPath(doc, parts)` with an empty path returns the whole
document with `ok = true`; in general it returns `(nil, false)` exactly
when some step of the path meets a non-document intermediate value or a
missing key, and otherwise returns the value resolved at the path with
`ok = true`. -/
theorem getPath_empty_and_characterization :
    (∀ doc : Doc, getPath doc [] = some (.obj doc)) ∧
    (∀ (doc : Doc) (parts : List String) (v : Value),
       getPath doc parts = some v ↔ Resolves (.obj doc) parts v) ∧
    (∀ (doc : Doc) (parts : List String),
       getPath doc parts = none ↔ PathFails (.obj doc) parts) :=
  ⟨fun _ => rfl,
   fun _ parts v => getPathAux_some_iff parts _ v,
   fun _ parts => getPathAux_none_iff parts _⟩

/-! ## Theorems on the match evaluator (claims C8, C4) -/

/-- C8: in `match`, a predicate whose operator is neither `"="` nor `">"`
falls through to the final `left >= right → false` test, i.e. succeeds
exactly on a strict less-than comparison; `parseQuery` turns `c:>2` into
the predicate `(["c"], "2", "2")` (the operator is the character after the
consumed `>`), so that query is evaluated end-to-end as `c < 2` rather than
`c > 2`. -/
theorem match_other_ops_evaluate_as_less_than :
    (∀ (doc : Doc) (arg : QueryComparison), arg.op ≠ "=" → arg.op ≠ ">" →
       (matchPred doc arg = true ↔
         ∃ v r l, getPath doc arg.key = some v ∧
           parseFloatQ arg.value = some r ∧ coerceFloat v = some l ∧ l < r)) ∧
    parseQuery "c:>2" = .ok ⟨[⟨["c"], "2", "2"⟩]⟩ ∧
    (∀ x : ℚ,
       queryMatch ⟨[⟨["c"], "2", "2"⟩]⟩ [("c", .num x)] = decide (x < 2)) := by
  refine ⟨?_, by decide, ?_⟩
  · intro doc arg h1 h2
    cases hg : getPath doc arg.key with
    | none => simp [matchPred, hg]
    | some value =>
      cases hp : parseFloatQ arg.value with
      | none => simp [matchPred, hg, hp, h1]
      | some r =>
        cases hc : coerceFloat value with
        | none => simp [matchPred, hg, hp, hc, h1]
        | some l =>
          simp [matchPred, hg, hp, hc, h1, h2]
  · intro x
    have hg : getPath [("c", Value.num x)] ["c"] = some (.num x) := rfl
    have hp : parseFloatQ "2" = some (2 : ℚ) := by decide
    simp [queryMatch, matchPred, hg, hp, coerceFloat]

/-- Witness for C8's general conjunct at a concrete instance: the document
`{"c": 1}` matches the predicate `(["c"], "2", "2")` because `1 < 2`. -/
theorem match_other_ops_evaluate_as_less_than_witness :
    matchPred [("c", .num 1)] ⟨["c"], "2", "2"⟩ = true :=
  (match_other_ops_evaluate_as_less_than.1 [("c", .num 1)] ⟨["c"], "2", "2"⟩
      (by decide) (by decide)).mpr
    ⟨.num 1, 2, 1, rfl, by decide, rfl, by norm_num⟩

/-- C4: for a `<` or `>` predicate, `match` first parses the predicate
value as a float and fails the predicate when that parse fails; it then
coerces the resolved document value to a float — numbers convert directly,
strings are parsed with failure on unparseable ones, and booleans, null,
nested documents and arrays all fail; finally `>` succeeds iff
`left > right` strictly and `<` succeeds iff `left < right` strictly, so
equal values fail both operators.  (Floats are idealized as exact
rationals; see the header.) -/
theorem match_range_predicate_characterization
    (doc : Doc) (arg : QueryComparison) (hop : arg.op = "<" ∨ arg.op = ">") :
    (parseFloatQ arg.value = none → matchPred doc arg = false) ∧
    (∀ v, getPath doc arg.key = some v → coerceFloat v = none →
       matchPred doc arg = false) ∧
    (matchPred doc arg = true ↔
       ∃ r v l, parseFloatQ arg.value = some r ∧
         getPath doc arg.key = some v ∧ coerceFloat v = some l ∧
         ((arg.op = ">" ∧ r < l) ∨ (arg.op = "<" ∧ l < r))) ∧
    (∀ r v, parseFloatQ arg.value = some r → getPath doc arg.key = some v →
       coerceFloat v = some r → matchPred doc arg = false) ∧
    (coerceFloat .null = none ∧ (∀ b, coerceFloat (.bool b) = none) ∧
     (∀ fs, coerceFloat (.obj fs) = none) ∧
     (∀ es, coerceFloat (.arr es) = none) ∧
     (∀ s, coerceFloat (.str s) = parseFloatQ s) ∧
     (∀ q, coerceFloat (.num q) = some q)) := by
  have hne : arg.op ≠ "=" := by
    rcases hop with h | h <;> rw [h] <;> decide
  have hlt : arg.op = "<" → arg.op ≠ ">" := by
    intro h; rw [h]; decide
  refine ⟨?_, ?_, ?_, ?_, rfl, fun b => rfl, fun fs => rfl, fun es => rfl,
    fun s => rfl, fun q => rfl⟩
  · intro hp
    cases hg : getPath doc arg.key with
    | none => simp [matchPred, hg]
    | some value => simp [matchPred, hg, hne, hp]
  · intro v hg hc
    cases hp : parseFloatQ arg.value with
    | none => simp [matchPred, hg, hne, hp]
    | some r => simp [matchPred, hg, hne, hp, hc]
  · constructor
    · intro hm
      cases hg : getPath doc arg.key with
      | none => rw [matchPred, hg] at hm; cases hm
      | some value =>
        cases hp : parseFloatQ arg.value with
        | none => simp [matchPred, hg, hne, hp] at hm
        | some r =>
          cases hc : coerceFloat value with
          | none => simp [matchPred, hg, hne, hp, hc] at hm
          | some l =>
            refine ⟨r, value, l, rfl, rfl, hc, ?_⟩
            rcases hop with h | h
            · simp [matchPred, hg, hne, hp, hc, h, hlt h] at hm
              exact Or.inr ⟨h, hm⟩
            · simp [matchPred, hg, hne, hp, hc, h] at hm
              exact Or.inl ⟨h, hm⟩
    · rintro ⟨r, v, l, hp, hg, hc, hcmp⟩
      rcases hcmp with ⟨h, hrl⟩ | ⟨h, hlr⟩
      · simp [matchPred, hg, hne, hp, hc, h, hrl]
      · simp [matchPred, hg, hne, hp, hc, h, hlt h, hlr]
  · intro r v hp hg hc
    rcases hop with h | h
    · simp [matchPred, hg, hne, hp, hc, h, hlt h, lt_irrefl]
    · simp [matchPred, hg, hne, hp, hc, h, lt_irrefl]

/-- Witness for C4 at concrete instances: `{"age":"45"} age < 50` succeeds
(string coerced to a number), and an equal value fails `<`. -/
theorem match_range_predicate_characterization_witness :
    matchPred [("age", .str "45")] ⟨["age"], "50", "<"⟩ = true ∧
    matchPred [("age", .num 2)] ⟨["age"], "2", "<"⟩ = false := by
  constructor
  · exact (match_range_predicate_characterization [("age", .str "45")]
        ⟨["age"], "50", "<"⟩ (Or.inl rfl)).2.2.1.mpr
      ⟨50, .str "45", 45, by decide, rfl, by decide, Or.inr ⟨rfl, by norm_num⟩⟩
  · exact (match_range_predicate_characterization [("age", .num 2)]
        ⟨["age"], "2", "<"⟩ (Or.inl rfl)).2.2.2.1 2 (.num 2) (by decide) rfl rfl

/-! ## Theorems on the index writer (claim C7) -/

theorem splitCOn_ne_nil (sep : Char) (l : List Char) : splitCOn sep l ≠ [] := by
  induction l with
  | nil => simp [splitCOn]
  | cons c rest ih =>
    simp only [splitCOn]
    cases h : splitCOn sep rest with
    | nil => simp
    | cons p ps => dsimp only; split <;> simp

theorem splitCOn_append (sep : Char) (a b : List Char) :
    splitCOn sep (a ++ sep :: b) = splitCOn sep a ++ splitCOn sep b := by
  induction a with
  | nil =>
    cases h : splitCOn sep b with
    | nil => exact absurd h (splitCOn_ne_nil sep b)
    | cons p ps => simp [splitCOn, h]
  | cons c a ih =>
    show splitCOn sep (c :: (a ++ sep :: b)) = splitCOn sep (c :: a) ++ splitCOn sep b
    simp only [splitCOn]
    rw [ih]
    cases h : splitCOn sep a with
    | nil => exact absurd h (splitCOn_ne_nil sep a)
    | cons p ps =>
      simp only [List.cons_append]
      by_cases hc : c = sep <;> simp [hc]

theorem mem_splitCOn_not_sep (sep : Char) (l : List Char) :
    ∀ p ∈ splitCOn sep l, sep ∉ p := by
  induction l with
  | nil =>
    intro p hp
    simp only [splitCOn, List.mem_singleton] at hp
    subst hp
    simp
  | cons c rest ih =>
    intro p hp
    cases h : splitCOn sep rest with
    | nil => exact absurd h (splitCOn_ne_nil sep rest)
    | cons q qs =>
      simp only [splitCOn, h] at hp
      by_cases hc : c = sep
      · rw [if_pos hc] at hp
        rcases List.mem_cons.mp hp with rfl | hp2
        · simp
        · exact ih p (h ▸ hp2)
      · rw [if_neg hc] at hp
        rcases List.mem_cons.mp hp with rfl | hp2
        · intro hmem
          rcases List.mem_cons.mp hmem with rfl | hmem2
          · exact hc rfl
          · exact ih q (h ▸ List.mem_cons_self q qs) hmem2
        · exact ih p (h ▸ List.mem_cons_of_mem q hp2)

theorem splitCOn_of_not_mem (sep : Char) (l : List Char) (h : sep ∉ l) :
    splitCOn sep l = [l] := by
  induction l with
  | nil => rfl
  | cons c rest ih =>
    have hc : ¬ c = sep := fun he => h (he ▸ List.mem_cons_self c rest)
    have hr : sep ∉ rest := fun hm => h (List.mem_cons_of_mem c hm)
    simp [splitCOn, ih hr, hc]

theorem count_self_splitCOn (sep : Char) (l : List Char) :
    (splitCOn sep l).count l ≤ 1 := by
  by_cases h : sep ∈ l
  · have hnm : l ∉ splitCOn sep l :=
      fun hm => (mem_splitCOn_not_sep sep l l hm) h
    simp [List.count_eq_zero.mpr hnm]
  · simp [splitCOn_of_not_mem sep l h]

theorem string_mk_injective : Function.Injective String.mk :=
  fun _ _ h => congrArg String.data h

theorem count_map_mk (l : List (List Char)) (x : List Char) :
    (l.map String.mk).count (String.mk x) = l.count x := by
  induction l with
  | nil => rfl
  | cons a as ih =>
    simp only [List.map_cons, List.count_cons, ih, beq_iff_eq,
      string_mk_injective.eq_iff]

theorem count_splitComma_eq (id s : String) :
    (splitComma s).count id = (splitCOn ',' s.data).count id.data :=
  count_map_mk (splitCOn ',' s.data) id.data

theorem idCount_self (id : String) : idCount id id ≤ 1 := by
  rw [idCount, count_splitComma_eq]
  exact count_self_splitCOn ',' id.data

theorem idCount_append_of_not_mem (id s : String) (h : id ∉ splitComma s) :
    idCount id (s ++ "," ++ id) ≤ 1 := by
  have hdata : (s ++ "," ++ id).data = s.data ++ ',' :: id.data := by
    have : (s ++ "," ++ id).data = s.data ++ [','] ++ id.data := rfl
    rw [this]
    simp
  rw [idCount, count_splitComma_eq, hdata, splitCOn_append, List.count_append]
  have h1 : (splitCOn ',' s.data).count id.data = 0 := by
    rw [← count_splitComma_eq]
    exact List.count_eq_zero.mpr h
  rw [h1]
  simpa using count_self_splitCOn ',' id.data

theorem idCount_postingAppend (s id : String) (h : idCount id s ≤ 1) :
    idCount id (postingAppend s id) ≤ 1 := by
  rw [postingAppend]
  by_cases h0 : s = ""
  · simp only [if_pos h0]
    exact idCount_self id
  · rw [if_neg h0]
    by_cases hm : id ∈ splitComma s
    · rw [if_pos hm]; exact h
    · rw [if_neg hm]; exact idCount_append_of_not_mem id s hm

theorem assocLookup_mem {α : Type} (store : List (String × α)) (k : String)
    (v : α) (h : assocLookup store k = some v) : (k, v) ∈ store := by
  induction store with
  | nil => cases h
  | cons p rest ih =>
    obtain ⟨k2, v2⟩ := p
    simp only [assocLookup] at h
    by_cases he : k2 = k
    · rw [if_pos he] at h
      injection h with h2
      rw [← he, ← h2]
      exact List.mem_cons_self _ _
    · rw [if_neg he] at h
      exact List.mem_cons_of_mem _ (ih h)

theorem mem_assocSet {α : Type} (store : List (String × α)) (k : String)
    (v : α) (p : String × α) (hp : p ∈ assocSet store k v) :
    p = (k, v) ∨ p ∈ store := by
  rw [assocSet] at hp
  split at hp
  · rcases List.mem_map.mp hp with ⟨q, hq, hmap⟩
    by_cases hqk : q.1 = k
    · rw [if_pos hqk] at hmap
      exact Or.inl hmap.symm
    · rw [if_neg hqk] at hmap
      exact Or.inr (hmap ▸ hq)
  · rcases List.mem_append.mp hp with h | h
    · exact Or.inr h
    · exact Or.inl (by simpa using h)

theorem indexOne_preserves (store : List (String × String)) (id pv : String)
    (h : ∀ p ∈ store, idCount id p.2 ≤ 1) :
    ∀ p ∈ indexOne store id pv, idCount id p.2 ≤ 1 := by
  intro p hp
  rcases mem_assocSet _ _ _ p hp with heq | hmem
  · subst heq
    apply idCount_postingAppend
    cases hl : assocLookup store pv with
    | none =>
      simp only [hl, Option.getD_none]
      have he : splitComma "" = [""] := rfl
      rw [idCount, he]
      simpa using List.count_le_length id [""]
    | some t =>
      simp only [hl, Option.getD_some]
      exact h (pv, t) (assocLookup_mem store pv t hl)
  · exact h p hmem

theorem index_foldl_preserves (id : String) :
    ∀ (pvs : List String) (store : List (String × String)),
      (∀ p ∈ store, idCount id p.2 ≤ 1) →
      ∀ p ∈ pvs.foldl (fun st pv => indexOne st id pv) store,
        idCount id p.2 ≤ 1 := by
  intro pvs
  induction pvs with
  | nil => intro store h p hp; exact h p hp
  | cons pv rest ih =>
    intro store h
    exact ih (indexOne store id pv) (indexOne_preserves store id pv h)

/-- C7: indexing is idempotent with respect to posting-list membership:
running `index(id, document)` any number of times, starting from any index
store whose posting lists each contain the id at most once (in particular
the empty store the indexer starts from), leaves every posting list in the
store containing that id at most once.  The `found` scan skips the append
exactly when the comma-split list already holds the id. -/
theorem index_reinsert_posting_lists_dedup (id : String) (document : Doc) :
    ∀ (n : ℕ) (store : List (String × String)),
      (∀ p ∈ store, idCount id p.2 ≤ 1) →
      ∀ p ∈ (fun st => index st id document)^[n] store, idCount id p.2 ≤ 1 := by
  intro n
  induction n with
  | zero => intro store h p hp; exact h p (by simpa using hp)
  | succ n ih =>
    intro store h
    rw [Function.iterate_succ_apply]
    exact ih (index store id document)
      (index_foldl_preserves id (getPathValues document "") store h)

/-- Witness for C7: after indexing `{"a": 2}` under id `i1` twice starting
from the empty store, the (unique) posting list `a=2 ↦ i1` contains `i1` at
most once. -/
theorem index_reinsert_posting_lists_dedup_witness : idCount "i1" "i1" ≤ 1 :=
  index_reinsert_posting_lists_dedup "i1" [("a", .num 2)] 2 []
    (by simp) ("a=2", "i1") (by decide)

/-! ## Theorems on the search executor (claims C9, C2) -/

theorem lookup_error_of_readErr (idx : IndexStore) (pv m : String)
    (h : assocLookup idx pv = some (.readErr m)) :
    lookup idx pv =
      .error ("Could not look up pathvalue [" ++ pv ++ "]: " ++ m) := by
  rw [lookup, h]

theorem collect_error_of_readErr (idx : IndexStore) :
    ∀ (ands : List QueryComparison) (st : List (String × Nat) × Bool × Nat),
      (∃ arg ∈ ands, arg.op = "=" ∧
        ∃ m, assocLookup idx (fingerprintOf arg) = some (.readErr m)) →
      ∃ e, collect idx ands st = .error e := by
  intro ands
  induction ands with
  | nil =>
    rintro st ⟨arg, hmem, _⟩
    cases hmem
  | cons a rest ih =>
    rintro ⟨counts, isR, nr⟩ ⟨arg, hmem, hop, m, hl⟩
    rcases List.mem_cons.mp hmem with rfl | hmem2
    · exact ⟨"Could not look up pathvalue [" ++ fingerprintOf arg ++ "]: " ++ m,
        by simp [collect, hop, lookup_error_of_readErr idx _ m hl]⟩
    · by_cases hop2 : a.op = "="
      · cases hlk : lookup idx (fingerprintOf a) with
        | error e => exact ⟨e, by simp [collect, hop2, hlk]⟩
        | ok ids =>
          obtain ⟨e, he⟩ :=
            ih (bumpCounts counts ids, isR, nr + 1) ⟨arg, hmem2, hop, m, hl⟩
          exact ⟨e, by simp [collect, hop2, hlk, he]⟩
      · obtain ⟨e, he⟩ := ih (counts, true, nr) ⟨arg, hmem2, hop, m, hl⟩
        exact ⟨e, by simp [collect, hop2, he]⟩

/-- C9: `searchDocuments` runs the posting-list lookup loop over all
equality predicates before the `skipIndex` check that discards their
result, so — even when `skipIndex=true` would make the full scan produce
the answer — a backend read failure on any equality predicate's fingerprint
aborts the whole search with an error response. -/
theorem searchDocuments_aborts_on_eq_lookup_error
    (primary : PrimaryStore) (idx : IndexStore) (q : Query) (skipIndex : Bool)
    (h : ∃ arg ∈ q.ands, arg.op = "=" ∧
      ∃ m, assocLookup idx (fingerprintOf arg) = some (.readErr m)) :
    ∃ e, searchDocuments primary idx q skipIndex = .error e := by
  obtain ⟨e, he⟩ := collect_error_of_readErr idx q.ands ([], false, 0) h
  exact ⟨e, by simp [searchDocuments, he]⟩

/-- Witness for C9: one equality predicate whose posting-list read fails
aborts the search even with `skipIndex=true`, although the primary store
holds a matching document a scan would have returned. -/
theorem searchDocuments_aborts_on_eq_lookup_error_witness :
    ∃ e, searchDocuments [("d1", [("a", .num 1)])] [("a=1", .readErr "boom")]
        ⟨[⟨["a"], "1", "="⟩]⟩ true = .error e :=
  searchDocuments_aborts_on_eq_lookup_error [("d1", [("a", .num 1)])]
    [("a=1", .readErr "boom")] ⟨[⟨["a"], "1", "="⟩]⟩ true
    ⟨⟨["a"], "1", "="⟩, by decide, rfl, "boom", by decide⟩

/-! ### The candidate-count bookkeeping of `searchDocuments` -/

theorem assocLookup_append {α : Type} (l1 l2 : List (String × α)) (k : String) :
    assocLookup (l1 ++ l2) k =
      match assocLookup l1 k with
      | some v => some v
      | none => assocLookup l2 k := by
  induction l1 with
  | nil => simp [assocLookup]
  | cons p rest ih =>
    obtain ⟨k2, v2⟩ := p
    by_cases he : k2 = k <;> simp [assocLookup, he, ih]

theorem assocLookup_cons {α : Type} (k2 : String) (v : α)
    (rest : List (String × α)) (k : String) :
    assocLookup ((k2, v) :: rest) k =
      if k2 = k then some v else assocLookup rest k := rfl

theorem assocLookup_map_bumpKey (counts : List (String × Nat)) (id x : String) :
    assocLookup (counts.map (fun p => if p.1 = id then (p.1, p.2 + 1) else p)) x =
      (assocLookup counts x).map (fun n => if x = id then n + 1 else n) := by
  induction counts with
  | nil => rfl
  | cons p rest ih =>
    obtain ⟨k, v⟩ := p
    simp only [List.map_cons]
    by_cases hkx : k = x
    · subst hkx
      by_cases hpid : k = id
      · subst hpid
        simp [assocLookup_cons]
      · simp [assocLookup_cons, hpid]
    · by_cases hpid : k = id
      · subst hpid
        simp [assocLookup_cons, hkx, ih]
      · simp [assocLookup_cons, hkx, hpid, ih]

theorem any_key_of_assocLookup_some {α : Type} (l : List (String × α))
    (k : String) (v : α) (h : assocLookup l k = some v) :
    l.any (fun p => p.1 = k) = true := by
  induction l with
  | nil => cases h
  | cons p rest ih =>
    obtain ⟨k2, v2⟩ := p
    simp only [assocLookup] at h
    by_cases he : k2 = k
    · simp [he]
    · rw [if_neg he] at h
      simp [ih h]

theorem assocLookup_some_of_any_key {α : Type} (l : List (String × α))
    (k : String) (h : l.any (fun p => p.1 = k) = true) :
    ∃ v, assocLookup l k = some v := by
  induction l with
  | nil => simp at h
  | cons p rest ih =>
    obtain ⟨k2, v2⟩ := p
    by_cases he : k2 = k
    · exact ⟨v2, by simp [assocLookup, he]⟩
    · simp only [List.any_cons, he] at h
      obtain ⟨v, hv⟩ := ih (by simpa [he] using h)
      exact ⟨v, by simp [assocLookup, he, hv]⟩

theorem countsVal_bumpCount (counts : List (String × Nat)) (id x : String) :
    countsVal (bumpCount counts id) x =
      countsVal counts x + (if x = id then 1 else 0) := by
  rw [bumpCount]
  split
  · rename_i hany
    rw [countsVal, assocLookup_map_bumpKey]
    by_cases hx : x = id
    · subst hx
      obtain ⟨v, hv⟩ := assocLookup_some_of_any_key counts x hany
      simp [countsVal, hv]
    · cases hl : assocLookup counts x <;> simp [countsVal, hl, hx]
  · rename_i hany
    rw [countsVal, assocLookup_append]
    have hsingle : ∀ y : String,
        assocLookup [(id, 1)] y = if id = y then some 1 else none := fun y => rfl
    cases hl : assocLookup counts x with
    | some v =>
      have hx : x ≠ id := by
        intro he
        exact hany (he ▸ any_key_of_assocLookup_some counts x v hl)
      simp [countsVal, hl, hx]
    | none =>
      by_cases hx : x = id
      · subst hx
        simp [countsVal, hl, hsingle]
      · have hx2 : ¬ id = x := fun h => hx h.symm
        simp [countsVal, hl, hsingle, hx, hx2]

theorem countsVal_bumpCounts (ids : List String) :
    ∀ (counts : List (String × Nat)) (x : String),
      countsVal (bumpCounts counts ids) x = countsVal counts x + ids.count x := by
  induction ids with
  | nil => intro counts x; simp [bumpCounts]
  | cons i rest ih =>
    intro counts x
    have h1 : bumpCounts counts (i :: rest) = bumpCounts (bumpCount counts i) rest := rfl
    rw [h1, ih, countsVal_bumpCount]
    by_cases hx : x = i
    · subst hx
      simp [List.count_cons]
      omega
    · have hx2 : ¬ i = x := fun h => hx h.symm
      simp [List.count_cons, hx, hx2]

theorem assocLookup_bumpCount_none (counts : List (String × Nat)) (id x : String) :
    assocLookup (bumpCount counts id) x = none ↔
      assocLookup counts x = none ∧ x ≠ id := by
  rw [bumpCount]
  split
  · rename_i hany
    rw [assocLookup_map_bumpKey]
    cases hl : assocLookup counts x with
    | some v => simp
    | none =>
      simp only [Option.map_none', ne_eq, true_and, true_iff]
      intro he
      obtain ⟨v, hv⟩ := assocLookup_some_of_any_key counts id hany
      rw [← he, hl] at hv
      cases hv
  · rename_i hany
    rw [assocLookup_append]
    have hsingle : ∀ y : String,
        assocLookup [(id, 1)] y = if id = y then some 1 else none := fun y => rfl
    cases hl : assocLookup counts x with
    | some v => simp
    | none =>
      simp only [hsingle, ne_eq, true_and]
      by_cases hx : id = x
      · simp [hx]
      · have hx2 : ¬ x = id := fun h => hx h.symm
        simp [hx, hx2]

theorem assocLookup_bumpCounts_none (ids : List String) :
    ∀ (counts : List (String × Nat)) (x : String),
      assocLookup (bumpCounts counts ids) x = none ↔
        assocLookup counts x = none ∧ x ∉ ids := by
  induction ids with
  | nil => intro counts x; simp [bumpCounts]
  | cons i rest ih =>
    intro counts x
    have h1 : bumpCounts counts (i :: rest) = bumpCounts (bumpCount counts i) rest := rfl
    rw [h1, ih, assocLookup_bumpCount_none]
    constructor
    · rintro ⟨⟨h1, h2⟩, h3⟩
      exact ⟨h1, by simp [h2, h3]⟩
    · rintro ⟨h1, h2⟩
      simp only [List.mem_cons, not_or] at h2
      exact ⟨⟨h1, h2.1⟩, h2.2⟩

theorem countsVal_foldl_bumpCounts (ls : List (List String)) :
    ∀ (counts : List (String × Nat)) (x : String),
      countsVal (ls.foldl bumpCounts counts) x =
        countsVal counts x + (ls.map (fun l => l.count x)).sum := by
  induction ls with
  | nil => intro counts x; simp
  | cons l rest ih =>
    intro counts x
    rw [List.foldl_cons, ih, countsVal_bumpCounts]
    simp [Nat.add_assoc]

theorem assocLookup_foldl_bumpCounts_none (ls : List (List String)) :
    ∀ (counts : List (String × Nat)) (x : String),
      assocLookup (ls.foldl bumpCounts counts) x = none ↔
        assocLookup counts x = none ∧ ∀ l ∈ ls, x ∉ l := by
  induction ls with
  | nil => intro counts x; simp
  | cons l rest ih =>
    intro counts x
    rw [List.foldl_cons, ih, assocLookup_bumpCounts_none]
    constructor
    · rintro ⟨⟨h1, h2⟩, h3⟩
      refine ⟨h1, ?_⟩
      intro ll hll
      rcases List.mem_cons.mp hll with rfl | hll2
      · exact h2
      · exact h3 ll hll2
    · rintro ⟨h1, h2⟩
      exact ⟨⟨h1, h2 l (List.mem_cons_self l rest)⟩,
        fun ll hll => h2 ll (List.mem_cons_of_mem l hll)⟩

theorem bumpCount_keys_nodup (counts : List (String × Nat)) (id : String)
    (h : (counts.map Prod.fst).Nodup) :
    ((bumpCount counts id).map Prod.fst).Nodup := by
  rw [bumpCount]
  split
  · have he : (counts.map (fun p => if p.1 = id then (p.1, p.2 + 1) else p)).map
        Prod.fst = counts.map Prod.fst := by
      rw [List.map_map]
      apply List.map_congr_left
      intro p _
      by_cases hp : p.1 = id <;> simp [hp]
    rw [he]
    exact h
  · rename_i hany
    have hid : id ∉ counts.map Prod.fst := by
      intro hmem
      rcases List.mem_map.mp hmem with ⟨p, hp, hfst⟩
      exact hany (by
        rw [List.any_eq_true]
        exact ⟨p, hp, by simp [hfst]⟩)
    rw [List.map_append]
    simp only [List.map_cons, List.map_nil]
    exact List.nodup_append.mpr ⟨h, List.nodup_singleton id,
      by simpa [List.disjoint_singleton] using hid⟩

theorem bumpCounts_keys_nodup (ids : List String) :
    ∀ (counts : List (String × Nat)),
      (counts.map Prod.fst).Nodup → ((bumpCounts counts ids).map Prod.fst).Nodup := by
  induction ids with
  | nil => intro counts h; exact h
  | cons i rest ih =>
    intro counts h
    exact ih (bumpCount counts i) (bumpCount_keys_nodup counts i h)

theorem foldl_bumpCounts_keys_nodup (ls : List (List String)) :
    ∀ (counts : List (String × Nat)),
      (counts.map Prod.fst).Nodup →
      ((ls.foldl bumpCounts counts).map Prod.fst).Nodup := by
  induction ls with
  | nil => intro counts h; exact h
  | cons l rest ih =>
    intro counts h
    exact ih (bumpCounts counts l) (bumpCounts_keys_nodup l counts h)

theorem assocLookup_eq_some_of_mem_nodup {α : Type} :
    ∀ (l : List (String × α)), (l.map Prod.fst).Nodup →
      ∀ (k : String) (v : α), (k, v) ∈ l → assocLookup l k = some v := by
  intro l
  induction l with
  | nil => intro _ k v hm; cases hm
  | cons p rest ih =>
    intro hnd k v hm
    obtain ⟨k2, v2⟩ := p
    rcases List.mem_cons.mp hm with heq | hm2
    · injection heq with h1 h2
      subst h1 h2
      simp [assocLookup_cons]
    · have hk2 : k2 ≠ k := by
        intro he
        subst he
        have : k2 ∈ rest.map Prod.fst :=
          List.mem_map.mpr ⟨(k2, v), hm2, rfl⟩
        exact (List.nodup_cons.mp (by simpa using hnd)).1 this
      rw [assocLookup_cons, if_neg hk2]
      exact ih (List.nodup_cons.mp (by simpa using hnd)).2 k v hm2

theorem mem_idsInAllOf (counts : List (String × Nat)) (nr : Nat) (id : String) :
    id ∈ idsInAllOf counts nr ↔ ∃ c, (id, c) ∈ counts ∧ c = nr := by
  rw [idsInAllOf]
  constructor
  · intro h
    rcases List.mem_map.mp h with ⟨p, hp, hfst⟩
    rcases List.mem_filter.mp hp with ⟨hm, hnr⟩
    refine ⟨p.2, ?_, by simpa using hnr⟩
    rw [← hfst]
    simpa using hm
  · rintro ⟨c, hm, rfl⟩
    exact List.mem_map.mpr ⟨(id, c), List.mem_filter.mpr ⟨hm, by simp⟩, rfl⟩

theorem sum_eq_length_iff_all_one :
    ∀ (ns : List Nat), (∀ x ∈ ns, x ≤ 1) →
      (ns.sum = ns.length ↔ ∀ x ∈ ns, x = 1) := by
  intro ns
  induction ns with
  | nil => intro _; simp
  | cons n rest ih =>
    intro h
    have hn : n ≤ 1 := h n (List.mem_cons_self n rest)
    have hrest : ∀ x ∈ rest, x ≤ 1 :=
      fun x hx => h x (List.mem_cons_of_mem n hx)
    have hsum : rest.sum ≤ rest.length := by
      clear ih h hn
      induction rest with
      | nil => simp
      | cons m r ihr =>
        have := hrest m (List.mem_cons_self m r)
        have h2 := ihr (fun x hx => hrest x (List.mem_cons_of_mem m hx))
        simp only [List.sum_cons, List.length_cons]
        omega
    rw [List.sum_cons, List.length_cons]
    constructor
    · intro he
      have hn1 : n = 1 := by omega
      have hs : rest.sum = rest.length := by omega
      intro x hx
      rcases List.mem_cons.mp hx with rfl | hx2
      · exact hn1
      · exact ((ih hrest).mp hs) x hx2
    · intro hall
      have hn1 : n = 1 := hall n (List.mem_cons_self n rest)
      have hs : rest.sum = rest.length :=
        (ih hrest).mpr (fun x hx => hall x (List.mem_cons_of_mem n hx))
      omega

theorem loadCandidates_no_range (primary : PrimaryStore) (q : Query) :
    ∀ ids : List String,
      loadCandidates primary q false ids = loadAllCandidates primary ids := by
  intro ids
  induction ids with
  | nil => rfl
  | cons id rest ih =>
    simp only [loadCandidates, loadAllCandidates, ih, Bool.not_false,
      Bool.true_or]
    cases getDocumentById primary id <;> simp

theorem collect_ok_spec (idx : IndexStore) :
    ∀ (ands : List QueryComparison) (counts : List (String × Nat)) (isR : Bool)
      (nr : Nat) (counts2 : List (String × Nat)) (isR2 : Bool) (nr2 : Nat),
      collect idx ands (counts, isR, nr) = .ok (counts2, isR2, nr2) →
      ∃ ls, lookupsOf idx ands = .ok ls ∧
        counts2 = ls.foldl bumpCounts counts ∧
        isR2 = (isR || ands.any (fun a => a.op ≠ "=")) ∧
        nr2 = nr + ls.length := by
  intro ands
  induction ands with
  | nil =>
    intro counts isR nr c2 i2 n2 h
    simp only [collect, Except.ok.injEq, Prod.mk.injEq] at h
    obtain ⟨h1, h2, h3⟩ := h
    exact ⟨[], rfl, by simp [h1], by simp [h2], by simp [h3]⟩
  | cons a rest ih =>
    intro counts isR nr c2 i2 n2 h
    by_cases hop : a.op = "="
    · simp only [collect, if_pos hop] at h
      cases hlk : lookup idx (fingerprintOf a) with
      | error e => rw [hlk] at h; cases h
      | ok ids =>
        rw [hlk] at h
        obtain ⟨ls, hls, hcounts, hisR, hnr⟩ :=
          ih (bumpCounts counts ids) isR (nr + 1) c2 i2 n2 h
        refine ⟨ids :: ls, ?_, ?_, ?_, ?_⟩
        · simp [lookupsOf, hop, hlk, hls]
        · simpa [List.foldl_cons] using hcounts
        · simpa [hop] using hisR
        · simp only [List.length_cons]
          omega
    · simp only [collect, if_neg hop] at h
      obtain ⟨ls, hls, hcounts, hisR, hnr⟩ := ih counts true nr c2 i2 n2 h
      refine ⟨ls, ?_, hcounts, ?_, hnr⟩
      · simpa [lookupsOf, hop] using hls
      · simp only [List.any_cons]
        have hne : (decide (a.op ≠ "=")) = true := by simp [hop]
        rw [hne]
        simpa using hisR

/-- C2 (amended): `searchDocuments` takes the full-scan branch when
`skipIndex=true` is requested **or when the index-derived candidate set is
empty** — which covers both "zero equality predicates" and a non-trivial
equality query whose posting-list intersection is empty; only a non-empty
candidate set is served from the index, and then, when the query has no
range predicates, every candidate whose document loads is included with no
re-evaluation of the query.  The candidate set is the count-based
intersection of the equality predicates' posting lists: when those posting
lists are duplicate-free, an id is a candidate exactly when there is at
least one equality predicate and every equality predicate's posting list
contains the id. -/
theorem searchDocuments_plan_characterization
    (primary : PrimaryStore) (idx : IndexStore) (q : Query) (skip : Bool)
    (counts : List (String × Nat)) (isR : Bool) (nr : Nat)
    (hc : collect idx q.ands ([], false, 0) = .ok (counts, isR, nr)) :
    ((skip = true ∨ idsInAllOf counts nr = []) →
       searchDocuments primary idx q skip = .ok (scanAll primary q)) ∧
    (skip = false → idsInAllOf counts nr ≠ [] →
       searchDocuments primary idx q skip =
         loadCandidates primary q isR (idsInAllOf counts nr)) ∧
    (skip = false → idsInAllOf counts nr ≠ [] → isR = false →
       searchDocuments primary idx q skip =
         loadAllCandidates primary (idsInAllOf counts nr)) ∧
    (∀ ls, lookupsOf idx q.ands = .ok ls →
       (∀ l ∈ ls, ∀ id, l.count id ≤ 1) →
       ∀ id, (id ∈ idsInAllOf counts nr ↔ ls ≠ [] ∧ ∀ l ∈ ls, id ∈ l)) := by
  refine ⟨?_, ?_, ?_, ?_⟩
  · rintro (rfl | hemp)
    · simp [searchDocuments, hc]
    · simp [searchDocuments, hc, hemp]
  · intro hskip hne
    subst hskip
    simp [searchDocuments, hc, hne]
  · intro hskip hne hr
    subst hskip hr
    simp [searchDocuments, hc, hne]
    exact loadCandidates_no_range primary q (idsInAllOf counts nr)
  · intro ls hls hdup id
    obtain ⟨ls0, hls0, hcounts, hisR, hnr⟩ :=
      collect_ok_spec idx q.ands [] false 0 counts isR nr hc
    rw [hls0] at hls
    injection hls with hlseq
    have hcounts2 : counts = ls.foldl bumpCounts [] := hlseq ▸ hcounts
    have hnr2 : nr = 0 + ls.length := by rw [hnr, hlseq]
    subst hcounts2 hnr2
    constructor
    · intro hmem
      rcases (mem_idsInAllOf _ _ id).mp hmem with ⟨c, hcm, hceq⟩
      have hlkp : assocLookup (ls.foldl bumpCounts []) id = some c :=
        assocLookup_eq_some_of_mem_nodup _
          (foldl_bumpCounts_keys_nodup ls [] (by simp)) id c hcm
      have hval : countsVal (ls.foldl bumpCounts []) id = c := by
        simp [countsVal, hlkp]
      rw [countsVal_foldl_bumpCounts] at hval
      have hzero : countsVal [] id = 0 := rfl
      rw [hzero] at hval
      have hsum : (ls.map (fun l => l.count id)).sum =
          (ls.map (fun l => l.count id)).length := by
        rw [List.length_map]
        omega
      have hall : ∀ x ∈ ls.map (fun l => l.count id), x = 1 :=
        (sum_eq_length_iff_all_one _ (by
          intro x hx
          rcases List.mem_map.mp hx with ⟨l, hl, rfl⟩
          exact hdup l hl id)).mp hsum
      have hmemall : ∀ l ∈ ls, id ∈ l := by
        intro l hl
        have h1 : l.count id = 1 := hall _ (List.mem_map.mpr ⟨l, hl, rfl⟩)
        exact List.count_pos_iff.mp (by omega)
      refine ⟨?_, hmemall⟩
      intro hnil
      subst hnil
      cases hlkp
    · rintro ⟨hne, hallmem⟩
      have hcount1 : ∀ l ∈ ls, l.count id = 1 := by
        intro l hl
        have h1 := hdup l hl id
        have h2 := List.count_pos_iff.mpr (hallmem l hl)
        omega
      have hsum : (ls.map (fun l => l.count id)).sum = ls.length := by
        have hall : ∀ x ∈ ls.map (fun l => l.count id), x = 1 := by
          intro x hx
          rcases List.mem_map.mp hx with ⟨l, hl, rfl⟩
          exact hcount1 l hl
        have h2 := (sum_eq_length_iff_all_one (ls.map fun l => l.count id) (by
          intro x hx
          rcases List.mem_map.mp hx with ⟨l, hl, rfl⟩
          exact hdup l hl id)).mpr hall
        rw [List.length_map] at h2
        exact h2
      have hval : countsVal (ls.foldl bumpCounts []) id = ls.length := by
        rw [countsVal_foldl_bumpCounts]
        have hzero : countsVal [] id = 0 := rfl
        rw [hzero, hsum]
        omega
      have hpres : assocLookup (ls.foldl bumpCounts []) id ≠ none := by
        intro hnone
        rcases (assocLookup_foldl_bumpCounts_none ls [] id).mp hnone
          with ⟨_, hforall⟩
        obtain ⟨l, hl⟩ : ∃ l, l ∈ ls := by
          cases ls with
          | nil => exact absurd rfl hne
          | cons a b => exact ⟨a, List.mem_cons_self a b⟩
        exact hforall l hl (hallmem l hl)
      cases hlkp : assocLookup (ls.foldl bumpCounts []) id with
      | none => exact absurd hlkp hpres
      | some c =>
        have hc2 : c = ls.length := by
          rw [countsVal, hlkp] at hval
          simpa using hval
        apply (mem_idsInAllOf _ _ id).mpr
        exact ⟨c, assocLookup_mem _ _ _ hlkp, by omega⟩

/-- Witness for C2 (amended) at a concrete instance: one equality
predicate, a populated index, `skipIndex=false`, no range predicates — the
search is served from the index candidate set without re-evaluation. -/
theorem searchDocuments_plan_characterization_witness :
    searchDocuments [("d1", [("a", .num 1)])] [("a=1", .bytes "d1")]
        ⟨[⟨["a"], "1", "="⟩]⟩ false = .ok [("d1", [("a", .num 1)])] := by
  have h := searchDocuments_plan_characterization [("d1", [("a", .num 1)])]
    [("a=1", .bytes "d1")] ⟨[⟨["a"], "1", "="⟩]⟩ false
    [("d1", 1)] false 1 (by decide)
  rw [h.2.2.1 rfl (by decide) rfl]
  decide

/-- C2 (counterexample to the claim as stated): with `skipIndex=false` and
one equality predicate whose posting list is empty, the candidate set (the
posting-list intersection) is empty, yet `searchDocuments` does not return
the empty result the claim's candidate-set description implies — it falls
back to full primary-store iteration and returns the matching document. -/
theorem searchDocuments_empty_intersection_scans :
    searchDocuments [("d1", [("a", .num 1)])] [] ⟨[⟨["a"], "1", "="⟩]⟩ false =
      .ok [("d1", [("a", .num 1)])] ∧
    collect [] [⟨["a"], "1", "="⟩] ([], false, 0) = .ok ([], false, 1) ∧
    idsInAllOf [] 1 = [] ∧
    searchDocuments [("d1", [("a", .num 1)])] [] ⟨[⟨["a"], "1", "="⟩]⟩ false ≠
      .ok [] := by
  refine ⟨by decide, by decide, by decide, by decide⟩

end DocDB

namespace DocDB

/-! ## Conformance of the embedding with the repository's test vectors

Concrete evaluations of the embedded functions on the inputs of
`main_test.go` and a few further sanity inputs.  `Test_parseQuery`'s
operator vectors (`c:>2` expecting `">"`, `a:<1` expecting `"<"`) are the
ones the source itself fails; the actual outcomes are recorded here and in
the C1 theorem. -/

/-- `Test_getPath`'s vectors. -/
theorem getPath_test_vectors :
    getPath [("a", .obj [("b", .num 1)])] ["a", "b"] = some (.num 1) ∧
    getPath [("a", .obj [("b", .num 1)])] ["a", "c"] = none := by
  refine ⟨by decide, by decide⟩

/-- `Test_lexString`'s vectors. -/
theorem lexString_test_vectors :
    lexString "a.b:c".data 0 = ("a.b", 3, none) ∧
    lexString "\"a b : . 2\":12".data 0 = ("a b : . 2", 11, none) ∧
    lexString " a:2".data 0 = ("", 0, some "No string found") ∧
    lexString " a:2".data 1 = ("a", 2, none) := by
  refine ⟨by decide, by decide, by decide, by decide⟩

/-- `Test_getPathValues`'s vectors (list order models Go's unspecified map
iteration order). -/
theorem getPathValues_test_vectors :
    getPathValues [("a", .num 2), ("b", .num 4), ("c", .str "hey im here")] "" =
      ["a=2", "b=4", "c=hey im here"] ∧
    getPathValues [("a", .obj [("12", .str "19")])] "" = ["a.12=19"] := by
  refine ⟨by decide, by decide⟩

/-- The remaining `Test_parseQuery` vectors: the empty query and the quoted
pair hold as the test expects; `a:<1` is expected by the test to carry the
operator `"<"` but the source yields `"1"` (the character after the
consumed `<`) — the same operator slip C1 records for `>`. -/
theorem parseQuery_test_vectors :
    parseQuery "" = .ok ⟨[]⟩ ∧
    parseQuery "\" a \":\" n \"" = .ok ⟨[⟨[" a "], " n ", "="⟩]⟩ ∧
    parseQuery "a.b:12" = .ok ⟨[⟨["a", "b"], "12", "="⟩]⟩ ∧
    parseQuery "a:<1" = .ok ⟨[⟨["a"], "1", "1"⟩]⟩ ∧
    parseQuery "a:<1" ≠ .ok ⟨[⟨["a"], "1", "<"⟩]⟩ ∧
    parseQuery " " = .crash ∧
    parseQuery "a:" = .crash := by
  refine ⟨by decide, by decide, by decide, by decide, by decide, by decide,
    by decide⟩

/-- Sanity evaluations of the `strconv.ParseFloat` model on its decimal
fragment. -/
theorem parseFloatQ_sanity :
    parseFloatQ "2" = some 2 ∧
    parseFloatQ "45" = some 45 ∧
    parseFloatQ "1.5" = some (mkRat 3 2) ∧
    parseFloatQ "1e2" = some 100 ∧
    parseFloatQ "-2.5e-1" = some (mkRat (-1) 4) ∧
    parseFloatQ "x" = none ∧
    parseFloatQ "" = none ∧
    parseFloatQ "1.2.3" = none := by
  refine ⟨by decide, by decide, by decide, by decide, by decide, by decide,
    by decide, by decide⟩

/-- Sanity evaluations of the index writer: fresh fingerprints seed their
posting lists, re-indexing the same pair leaves the store unchanged, and a
second id is appended comma-separated. -/
theorem index_sanity :
    index [] "i1" [("a", .num 2), ("b", .num 4)] =
      [("a=2", "i1"), ("b=4", "i1")] ∧
    index (index [] "i1" [("a", .num 2)]) "i1" [("a", .num 2)] =
      [("a=2", "i1")] ∧
    index (index [] "i1" [("a", .num 2)]) "i2" [("a", .num 2)] =
      [("a=2", "i1,i2")] ∧
    lookup [("a=1", .bytes "i1,i2")] "a=1" = .ok ["i1", "i2"] ∧
    lookup [] "a=1" = .ok [] := by
  refine ⟨by decide, by decide, by decide, by decide, by decide⟩

end DocDB
